import Mathlib

/-!
Verification of the libsse_crypto core primitives: the authenticated-encryption
`Cipher` (src/src/cipher.cpp), the counter-mode `Prf` (prf header), and the
incremental multiset hash `SetHash` (src/src/set_hash.cpp).

Byte strings are modelled as `List Nat`.  The external libsodium primitives
(ChaCha20-Poly1305 AEAD, Blake2b keyed hash) and the external ECMH
elliptic-curve multiset-hash engine are abstracted as structures whose fields
carry exactly the contracts the specification assigns to them.
-/

namespace SseCrypto

/-- `crypto_generichash_blake2b_SALTBYTES`: the nonce placed at the head of a
ciphertext is 16 bytes. -/
def NONCE_SIZE : Nat := 16

/-- `crypto_aead_chacha20poly1305_IETF_ABYTES`: the Poly1305 authentication tag
is 16 bytes. -/
def TAG_SIZE : Nat := 16

/-- `crypto_aead_chacha20poly1305_IETF_NPUBBYTES`: the AEAD reads a 12-byte
public nonce from the front of the 16-byte salt buffer. -/
def NPUB_SIZE : Nat := 12

/-- Modelled from the spec: the external AEAD primitive (libsodium
ChaCha20-Poly1305, not part of this repository).  `enc key npub msg` returns
the ciphertext-and-tag, `dec key npub ct` returns the plaintext or signals a
tag-verification failure.  The fields `enc_length`, `dec_length` and `dec_enc`
are the contract the specification states for the external primitive: the AEAD
output is the plaintext length plus `TAG_SIZE`, a successful decryption
returns `ct.length - TAG_SIZE` bytes, and decryption inverts encryption under
the same key and nonce. -/
structure AEADScheme where
  enc : List Nat → List Nat → List Nat → List Nat
  dec : List Nat → List Nat → List Nat → Option (List Nat)
  enc_length : ∀ k n m, (enc k n m).length = m.length + TAG_SIZE
  dec_length : ∀ k n c p, dec k n c = some p → p.length = c.length - TAG_SIZE
  dec_enc : ∀ k n m, dec k n (enc k n m) = some m

/-- Errors surfaced by the Cipher: `invalidInput` models
`std::invalid_argument`, `decryptionFailure` models the `std::runtime_error`
thrown on AEAD tag-verification failure. -/
inductive CipherError
  | invalidInput
  | decryptionFailure
  deriving DecidableEq, Repr

namespace Cipher

/-- `Cipher::CipherImpl::ciphertext_length` (cipher.cpp line 51). -/
def ciphertext_length (plaintext_len : Nat) : Nat :=
  plaintext_len + NONCE_SIZE + TAG_SIZE

/-- `Cipher::CipherImpl::plaintext_length` (cipher.cpp line 57). -/
def plaintext_length (c_len : Nat) : Nat :=
  if NONCE_SIZE + TAG_SIZE < c_len then c_len - NONCE_SIZE - TAG_SIZE
  else 0

/-- `Cipher::CipherImpl::encrypt(const unsigned char*, const size_t&, unsigned char*)`
(cipher.cpp line 122).  The freshly generated random nonce is passed in as
`nonce` (the output of `random_bytes`); `kdf key nonce` is the Blake2b
subkey derivation keyed with the master key, salted with the nonce and
personalised with the fixed domain-separation string `"encryption_key"`.
The output buffer holds the nonce followed by the AEAD ciphertext-and-tag. -/
def encryptRaw (A : AEADScheme) (kdf : List Nat → List Nat → List Nat)
    (key nonce inp : List Nat) : List Nat :=
  nonce ++ A.enc (kdf key nonce) (nonce.take NPUB_SIZE) inp

/-- `Cipher::CipherImpl::encrypt(const std::string&, std::string&)`
(cipher.cpp line 163): rejects the empty plaintext, otherwise allocates a
`ciphertext_length` buffer, runs the raw encryption into it and returns the
buffer's contents (`std::string(data, c_len)`); the padding models the
allocated buffer. -/
def encrypt (A : AEADScheme) (kdf : List Nat → List Nat → List Nat)
    (key nonce inp : List Nat) : Except CipherError (List Nat) :=
  if inp = [] then .error .invalidInput
  else
    .ok ((encryptRaw A kdf key nonce inp
          ++ List.replicate (ciphertext_length inp.length) 0).take
        (ciphertext_length inp.length))

/-- `Cipher::CipherImpl::decrypt(const unsigned char*, const size_t&, unsigned char*)`
(cipher.cpp line 183): rejects inputs shorter than `ciphertext_length(0)`,
re-derives the subkey from the `NONCE_SIZE`-byte nonce prefix, and runs AEAD
decryption on the remainder; a tag-verification failure zeroes the partial
output and raises a decryption failure. -/
def decryptRaw (A : AEADScheme) (kdf : List Nat → List Nat → List Nat)
    (key inp : List Nat) : Except CipherError (List Nat) :=
  if inp.length < ciphertext_length 0 then .error .invalidInput
  else
    match A.dec (kdf key (inp.take NONCE_SIZE))
        ((inp.take NONCE_SIZE).take NPUB_SIZE) (inp.drop NONCE_SIZE) with
    | some m => .ok m
    | none => .error .decryptionFailure

/-- `Cipher::CipherImpl::decrypt(const std::string&, std::string&)`
(cipher.cpp line 234), with the caller's output string made explicit:
`out0` is the output string's prior contents.  The length check throws
before anything is written; the raw decryption writes into the local
zero-initialised `std::vector` of `plaintext_length` bytes, and only on
success is the output string assigned from that buffer. -/
def decryptInto (A : AEADScheme) (kdf : List Nat → List Nat → List Nat)
    (key inp out0 : List Nat) : Except CipherError Unit × List Nat :=
  if inp.length ≤ NONCE_SIZE + TAG_SIZE then (.error .invalidInput, out0)
  else
    match decryptRaw A kdf key inp with
    | .ok m =>
        (.ok (),
          (m ++ List.replicate (plaintext_length inp.length) 0).take
            (plaintext_length inp.length))
    | .error e => (.error e, out0)

/-- The value of the output string after `decrypt(in, out)` returns
normally, or the error thrown. -/
def decrypt (A : AEADScheme) (kdf : List Nat → List Nat → List Nat)
    (key inp : List Nat) : Except CipherError (List Nat) :=
  match decryptInto A kdf key inp [] with
  | (.ok _, out) => .ok out
  | (.error e, _) => .error e

end Cipher

/-- A concrete AEAD instance used to witness the Cipher theorems: the
ciphertext is the message followed by a `TAG_SIZE`-byte all-zero tag, and
decryption strips the tag. -/
def padAEAD : AEADScheme where
  enc _ _ m := m ++ List.replicate TAG_SIZE 0
  dec _ _ c :=
    if TAG_SIZE ≤ c.length then some (c.take (c.length - TAG_SIZE)) else none
  enc_length := by intro k n m; simp
  dec_length := by
    intro k n c p h
    dsimp only at h
    split at h
    · cases h
      simp [List.length_take]
    · cases h
  dec_enc := by
    intro k n m
    have h1 : TAG_SIZE ≤ (m ++ List.replicate TAG_SIZE 0).length := by simp
    have h2 : (m ++ List.replicate TAG_SIZE 0).length - TAG_SIZE = m.length := by
      simp
    simp only [if_pos h1, h2, Option.some.injEq]
    exact List.take_left' rfl

/-- A concrete subkey-derivation function used in witnesses. -/
def zeroKdf : List Nat → List Nat → List Nat := fun _ _ => List.replicate 32 0

/-- Modelled from the spec: the keyed hash underlying the PRF (`HMac<Hash>`
from hmac.hpp / hash.hpp, not present under src/).  `run m` is the full
keyed digest of message `m` (the key is folded into the function), `dg` is
the digest size `PrfBase::kDigestSize`; `run_length` is the fixed-digest-size
contract the specification states for the keyed-hash primitive. -/
structure HMacKH where
  dg : Nat
  dg_pos : 0 < dg
  run : List Nat → List Nat
  run_length : ∀ m, (run m).length = dg

/-- Modelled from the spec: `base_.hmac(in, len, out, outlen)` writes the
first `outlen` bytes of the keyed digest into the output buffer. -/
def HMacKH.hmac (H : HMacKH) (m : List Nat) (outlen : Nat) : List Nat :=
  (H.run m).take outlen

namespace Prf

/-- The number of counter-mode blocks needed to produce `n` bytes from blocks
of `d` bytes: `⌈n / d⌉`. -/
def numBlocks (d n : Nat) : Nat := (n + d - 1) / d

/-- In-place buffer write: `memcpy(buf + pos, out, out.size)` replaces the
bytes of `buf` at positions `[pos, pos + out.length)` by `out` (all writes
the loop performs are in bounds, since the written length never exceeds
`nbytes - pos`). -/
def writeAt (buf : List Nat) (pos : Nat) (out : List Nat) : List Nat :=
  buf.take pos ++ out ++ buf.drop (pos + out.length)

/-- The counter-mode loop of `Prf<NBYTES>::prf` (prf header), modelled
faithfully: the loop position `pos` is a `uint16_t`, so `pos += kDigestSize`
wraps modulo 2^16, and the counter byte `i` is a `uint8_t` (reduced mod 256
where it enters the hash input).  Each iteration hashes `inp || counter` and
writes one digest (or, for the final block, only the remaining
`nbytes - pos` bytes) into the output buffer at `pos`.  `fuel` bounds the
number of loop iterations, `none` meaning the loop did not exit within the
bound; the wrap makes the loop genuinely non-terminating for some output
lengths, which the divergence theorem below establishes for every bound. -/
def prfLoopW (H : HMacKH) (nbytes : Nat) (inp : List Nat) :
    Nat → Nat → Nat → List Nat → Option (List Nat)
  | 0, _, _, _ => none
  | fuel + 1, pos, i, buf =>
    if pos < nbytes then
      prfLoopW H nbytes inp fuel ((pos + H.dg) % 65536) (i + 1)
        (writeAt buf pos
          (H.hmac (inp ++ [i % 256])
            (if H.dg ≤ nbytes - pos then H.dg else nbytes - pos)))
    else some buf

/-- `Prf<NBYTES>::prf(const unsigned char*, const size_t)`: if the requested
output length exceeds one digest, run the counter-mode loop over the
`NBYTES`-byte result array (the iteration bound `nbytes + 1` exceeds the
iteration count of every terminating run, since each iteration produces at
least one output byte); otherwise a single truncated call to the keyed
hash. -/
def prf (H : HMacKH) (nbytes : Nat) (inp : List Nat) : Option (List Nat) :=
  if H.dg < nbytes then
    prfLoopW H nbytes inp (nbytes + 1) 0 0 (List.replicate nbytes 0)
  else some (H.hmac inp nbytes)

/-- The concatenation of the keyed-hash digests of `inp || counter_byte` for
`m` consecutive counters starting at `i`. -/
def blockcat (H : HMacKH) (inp : List Nat) (i m : Nat) : List Nat :=
  ((List.range m).map (fun j => H.run (inp ++ [(i + j) % 256]))).flatten

/-- The claim's description of the counter-mode output: the concatenation of
the keyed-hash digests of `in || counter_byte` for counters `0, 1, 2, ...`,
truncated to exactly `nbytes` bytes. -/
def prfCounterSpec (H : HMacKH) (nbytes : Nat) (inp : List Nat) : List Nat :=
  (((List.range (numBlocks H.dg nbytes)).map
      (fun i => H.run (inp ++ [i % 256]))).flatten).take nbytes

end Prf

/-- A concrete keyed hash used to witness the PRF theorem: a two-byte digest
derived from the message length. -/
def lenHash : HMacKH where
  dg := 2
  dg_pos := by decide
  run m := [m.length % 256, 7]
  run_length := by intro m; rfl

/-- A concrete keyed hash with the 64-byte digest size of the repository's
Blake2b hash, used in the divergence counterexample. -/
def blockHash64 : HMacKH where
  dg := 64
  dg_pos := by decide
  run m := List.replicate 64 (m.length % 256)
  run_length := by intro m; simp

/-- Modelled from the spec: the external elliptic-curve multiset-hash engine
(the vendored ECMH library, not present under src/).  It supplies a
hash-to-group mapping into the commutative group of curve points, and a
lossless hexadecimal encoding of group elements; `from_to_hex` is the
round-trip contract the specification states for the engine's encoding. -/
structure ECMHEngine (G : Type) [AddCommGroup G] where
  hashToGroup : List Nat → G
  toHexG : G → List Nat
  fromHexG : List Nat → G
  from_to_hex : ∀ g, fromHexG (toHexG g) = g

namespace SetHash

variable {G : Type} [AddCommGroup G]

/-- `SetHash::SetHashImpl::SetHashImpl()` (set_hash.cpp line 164):
`initial_state(ecmh())` is the group identity, the hash of the empty set. -/
def initialState (_E : ECMHEngine G) : G := 0

/-- `SetHash::SetHashImpl::add_element` (set_hash.cpp line 182):
`add(ecmh(), state_, in)` combines the state with the hash-mapped element. -/
def add_element (E : ECMHEngine G) (s : G) (x : List Nat) : G :=
  s + E.hashToGroup x

/-- `SetHash::SetHashImpl::remove_element` (set_hash.cpp line 192):
`remove(ecmh(), state_, in)` combines the state with the inverse of the
hash-mapped element. -/
def remove_element (E : ECMHEngine G) (s : G) (x : List Nat) : G :=
  s - E.hashToGroup x

/-- `SetHash::SetHashImpl::add_set` (set_hash.cpp line 187):
`add_hash(ecmh(), state_, in->state_)` combines two full hash states. -/
def add_set (s h : G) : G := s + h

/-- `SetHash::SetHashImpl::remove_set` (set_hash.cpp line 197). -/
def remove_set (s h : G) : G := s - h

/-- `SetHash::SetHashImpl::invert_set` (set_hash.cpp line 202). -/
def invert_set (s : G) : G := -s

/-- `SetHash::SetHashImpl::hex` (set_hash.cpp line 207):
`to_hex(ecmh(), state_)`. -/
def hex (E : ECMHEngine G) (s : G) : List Nat := E.toHexG s

/-- `SetHash::SetHashImpl::SetHashImpl(const std::string&)` (set_hash.cpp
line 173): `state_ = from_hex(ecmh(), hex)`. -/
def from_hex (E : ECMHEngine G) (str : List Nat) : G := E.fromHexG str

/-- `SetHash::SetHashImpl::operator==` (set_hash.cpp line 212):
`equal(ecmh().curve(), state_, h.state_)` is equality of the underlying
group elements. -/
def equal (s h : G) : Prop := s = h

end SetHash

/-- A concrete multiset-hash engine over `Fin 7` (addition mod 7), used only
to show that `ECMHEngine` is inhabited. -/
def modEngine : ECMHEngine (Fin 7) where
  hashToGroup l := Fin.ofNat (l.length + l.sum)
  toHexG g := [g.val]
  fromHexG l := Fin.ofNat (l.headD 0)
  from_to_hex := by decide

/-- C1: for every plaintext length `L ≥ 1`, `ciphertext_length L` equals
`L + NONCE_SIZE + TAG_SIZE` and `plaintext_length` applied to it returns `L`;
for every `c_len ≤ NONCE_SIZE + TAG_SIZE`, `plaintext_length c_len` is `0`. -/
theorem cipher_length_contracts :
    (∀ L, 1 ≤ L →
      Cipher.ciphertext_length L = L + NONCE_SIZE + TAG_SIZE ∧
      Cipher.plaintext_length (Cipher.ciphertext_length L) = L) ∧
    (∀ c_len, c_len ≤ NONCE_SIZE + TAG_SIZE →
      Cipher.plaintext_length c_len = 0) := by
  constructor
  · intro L hL
    refine ⟨rfl, ?_⟩
    simp only [Cipher.ciphertext_length, Cipher.plaintext_length,
      NONCE_SIZE, TAG_SIZE]
    split <;> omega
  · intro c_len hc
    simp only [NONCE_SIZE, TAG_SIZE] at hc
    simp only [Cipher.plaintext_length, NONCE_SIZE, TAG_SIZE]
    split <;> omega

/-- Witness for C1 at `L = 13` and `c_len = 32` (the spec's scenario uses a
13-byte plaintext with `NONCE_SIZE = 16`, `TAG_SIZE = 16`, ciphertext length
45). -/
theorem cipher_length_contracts_witness :
    (1 ≤ 13 ∧
      Cipher.ciphertext_length 13 = 13 + NONCE_SIZE + TAG_SIZE ∧
      Cipher.plaintext_length (Cipher.ciphertext_length 13) = 13) ∧
    (32 ≤ NONCE_SIZE + TAG_SIZE ∧ Cipher.plaintext_length 32 = 0) :=
  ⟨⟨by decide, cipher_length_contracts.1 13 (by decide)⟩,
   ⟨by decide, cipher_length_contracts.2 32 (by decide)⟩⟩

/-- The raw encryption output is the nonce followed by the AEAD output, so its
length is `nonce.length + (inp.length + TAG_SIZE)`. -/
theorem encryptRaw_length (A : AEADScheme) (kdf : List Nat → List Nat → List Nat)
    (key nonce inp : List Nat) :
    (Cipher.encryptRaw A kdf key nonce inp).length
      = nonce.length + (inp.length + TAG_SIZE) := by
  simp [Cipher.encryptRaw, A.enc_length]

/-- With a `NONCE_SIZE`-byte nonce and a non-empty plaintext, the string
`encrypt` returns exactly the raw encryption output: the raw output fills the
allocated `ciphertext_length` buffer. -/
theorem encrypt_eq_raw (A : AEADScheme) (kdf : List Nat → List Nat → List Nat)
    (key nonce inp : List Nat) (hn : nonce.length = NONCE_SIZE) (hi : inp ≠ []) :
    Cipher.encrypt A kdf key nonce inp
      = .ok (Cipher.encryptRaw A kdf key nonce inp) := by
  simp only [Cipher.encrypt, if_neg hi]
  congr 1
  have hlen : (Cipher.encryptRaw A kdf key nonce inp).length
      = Cipher.ciphertext_length inp.length := by
    rw [encryptRaw_length, hn]
    simp only [Cipher.ciphertext_length]
    omega
  rw [← hlen, List.take_left]

/-- C4: `encrypt` raises an invalid-input error exactly on the empty
plaintext; on every non-empty plaintext it succeeds and the ciphertext has
`inp.length + NONCE_SIZE + TAG_SIZE` bytes. -/
theorem cipher_encrypt_invalid_iff (A : AEADScheme)
    (kdf : List Nat → List Nat → List Nat) (key nonce inp : List Nat) :
    (Cipher.encrypt A kdf key nonce inp = .error .invalidInput ↔ inp = []) ∧
    (inp ≠ [] → ∃ ct, Cipher.encrypt A kdf key nonce inp = .ok ct ∧
      ct.length = inp.length + NONCE_SIZE + TAG_SIZE) := by
  constructor
  · by_cases hi : inp = [] <;> simp [Cipher.encrypt, hi]
  · intro hi
    refine ⟨(Cipher.encryptRaw A kdf key nonce inp
        ++ List.replicate (Cipher.ciphertext_length inp.length) 0).take
          (Cipher.ciphertext_length inp.length), ?_, ?_⟩
    · simp [Cipher.encrypt, hi]
    · rw [List.length_take]
      simp only [List.length_append, List.length_replicate,
        Cipher.ciphertext_length]
      omega

/-- Witness for C4 at plaintext `[9]` with a concrete AEAD instance. -/
theorem cipher_encrypt_invalid_iff_witness :
    (Cipher.encrypt padAEAD zeroKdf [] (List.replicate NONCE_SIZE 2) [9]
        = .error .invalidInput ↔ ([9] : List Nat) = []) ∧
    (([9] : List Nat) ≠ [] ∧
      ∃ ct, Cipher.encrypt padAEAD zeroKdf [] (List.replicate NONCE_SIZE 2) [9]
          = .ok ct ∧
        ct.length = ([9] : List Nat).length + NONCE_SIZE + TAG_SIZE) :=
  ⟨(cipher_encrypt_invalid_iff padAEAD zeroKdf [] (List.replicate NONCE_SIZE 2)
      [9]).1,
   by decide,
   (cipher_encrypt_invalid_iff padAEAD zeroKdf [] (List.replicate NONCE_SIZE 2)
      [9]).2 (by decide)⟩

/-- C6: the ciphertext produced on a non-empty plaintext starts with the
generated nonce, followed by the AEAD ciphertext-and-tag of
`p.length + TAG_SIZE` bytes, for `p.length + NONCE_SIZE + TAG_SIZE` bytes in
total. -/
theorem cipher_ciphertext_layout (A : AEADScheme)
    (kdf : List Nat → List Nat → List Nat) (key nonce p : List Nat)
    (hn : nonce.length = NONCE_SIZE) (hp : p ≠ []) :
    ∃ ct, Cipher.encrypt A kdf key nonce p = .ok ct ∧
      ct.take NONCE_SIZE = nonce ∧
      ct.drop NONCE_SIZE = A.enc (kdf key nonce) (nonce.take NPUB_SIZE) p ∧
      (ct.drop NONCE_SIZE).length = p.length + TAG_SIZE ∧
      ct.length = p.length + NONCE_SIZE + TAG_SIZE := by
  refine ⟨Cipher.encryptRaw A kdf key nonce p,
    encrypt_eq_raw A kdf key nonce p hn hp, ?_, ?_, ?_, ?_⟩
  · unfold Cipher.encryptRaw
    exact List.take_left' hn
  · unfold Cipher.encryptRaw
    exact List.drop_left' hn
  · unfold Cipher.encryptRaw
    rw [List.drop_left' hn, A.enc_length]
  · rw [encryptRaw_length, hn]
    omega

/-- Witness for C6 at plaintext `[1, 2]` with a concrete AEAD instance and a
concrete 16-byte nonce. -/
theorem cipher_ciphertext_layout_witness :
    (List.replicate NONCE_SIZE 3).length = NONCE_SIZE ∧
    ([1, 2] : List Nat) ≠ [] ∧
    ∃ ct, Cipher.encrypt padAEAD zeroKdf [] (List.replicate NONCE_SIZE 3) [1, 2]
        = .ok ct ∧
      ct.take NONCE_SIZE = List.replicate NONCE_SIZE 3 ∧
      ct.drop NONCE_SIZE
        = padAEAD.enc (zeroKdf [] (List.replicate NONCE_SIZE 3))
            ((List.replicate NONCE_SIZE 3).take NPUB_SIZE) [1, 2] ∧
      (ct.drop NONCE_SIZE).length = ([1, 2] : List Nat).length + TAG_SIZE ∧
      ct.length = ([1, 2] : List Nat).length + NONCE_SIZE + TAG_SIZE :=
  ⟨by simp, by decide,
   cipher_ciphertext_layout padAEAD zeroKdf [] (List.replicate NONCE_SIZE 3)
     [1, 2] (by simp) (by decide)⟩

/-- C2: decrypting the output of `encrypt` with the same cipher (same master
key, hence the same subkey derivation, and the nonce recovered from the
ciphertext prefix) returns exactly the plaintext. -/
theorem cipher_roundtrip (A : AEADScheme)
    (kdf : List Nat → List Nat → List Nat) (key nonce p : List Nat)
    (hn : nonce.length = NONCE_SIZE) (hp : p ≠ []) :
    (Cipher.encrypt A kdf key nonce p).bind (Cipher.decrypt A kdf key)
      = .ok p := by
  have hp' : 0 < p.length := List.length_pos.mpr hp
  rw [encrypt_eq_raw A kdf key nonce p hn hp]
  show Cipher.decrypt A kdf key (Cipher.encryptRaw A kdf key nonce p) = .ok p
  have hctlen : (Cipher.encryptRaw A kdf key nonce p).length
      = p.length + NONCE_SIZE + TAG_SIZE := by
    rw [encryptRaw_length, hn]
    omega
  have htake : (Cipher.encryptRaw A kdf key nonce p).take NONCE_SIZE
      = nonce := by
    unfold Cipher.encryptRaw
    exact List.take_left' hn
  have hdrop : (Cipher.encryptRaw A kdf key nonce p).drop NONCE_SIZE
      = A.enc (kdf key nonce) (nonce.take NPUB_SIZE) p := by
    unfold Cipher.encryptRaw
    exact List.drop_left' hn
  have hraw : Cipher.decryptRaw A kdf key (Cipher.encryptRaw A kdf key nonce p)
      = .ok p := by
    unfold Cipher.decryptRaw
    rw [if_neg (by rw [hctlen]; simp [Cipher.ciphertext_length])]
    rw [htake, hdrop, A.dec_enc]
  have hplen :
      Cipher.plaintext_length (Cipher.encryptRaw A kdf key nonce p).length
        = p.length := by
    rw [hctlen]
    simp only [Cipher.plaintext_length]
    split <;> omega
  have hinto : Cipher.decryptInto A kdf key
      (Cipher.encryptRaw A kdf key nonce p) [] = (.ok (), p) := by
    unfold Cipher.decryptInto
    rw [if_neg (by rw [hctlen]; omega)]
    rw [hraw, hplen]
    have hpt : List.take p.length (p ++ List.replicate p.length 0) = p :=
      List.take_left' rfl
    dsimp only
    rw [hpt]
  unfold Cipher.decrypt
  rw [hinto]

/-- Witness for C2 at plaintext `[2, 3, 4]` with a concrete AEAD instance. -/
theorem cipher_roundtrip_witness :
    (List.replicate NONCE_SIZE 1).length = NONCE_SIZE ∧
    ([2, 3, 4] : List Nat) ≠ [] ∧
    (Cipher.encrypt padAEAD zeroKdf [] (List.replicate NONCE_SIZE 1) [2, 3, 4]).bind
      (Cipher.decrypt padAEAD zeroKdf []) = .ok [2, 3, 4] :=
  ⟨by simp, by decide,
   cipher_roundtrip padAEAD zeroKdf [] (List.replicate NONCE_SIZE 1) [2, 3, 4]
     (by simp) (by decide)⟩

/-- C5: `decrypt` raises an invalid-input error whenever the input has at
most `NONCE_SIZE + TAG_SIZE` bytes, and never raises an invalid-input error
on a longer input (any failure there is a decryption failure). -/
theorem cipher_decrypt_invalid_iff (A : AEADScheme)
    (kdf : List Nat → List Nat → List Nat) (key inp : List Nat) :
    (inp.length ≤ NONCE_SIZE + TAG_SIZE →
      Cipher.decrypt A kdf key inp = .error .invalidInput) ∧
    (NONCE_SIZE + TAG_SIZE < inp.length →
      Cipher.decrypt A kdf key inp ≠ .error .invalidInput) := by
  constructor
  · intro h
    unfold Cipher.decrypt Cipher.decryptInto
    rw [if_pos h]
  · intro h
    unfold Cipher.decrypt Cipher.decryptInto Cipher.decryptRaw
    rw [if_neg (by omega),
      if_neg (by simp only [Cipher.ciphertext_length, NONCE_SIZE, TAG_SIZE] at *; omega)]
    cases hA : A.dec (kdf key (inp.take NONCE_SIZE))
        ((inp.take NONCE_SIZE).take NPUB_SIZE) (inp.drop NONCE_SIZE) with
    | some m => simp
    | none => simp

/-- Witness for C5 at the empty input (invalid) and at a 33-byte input (no
invalid-input error). -/
theorem cipher_decrypt_invalid_iff_witness :
    (([] : List Nat).length ≤ NONCE_SIZE + TAG_SIZE ∧
      Cipher.decrypt padAEAD zeroKdf [] [] = .error .invalidInput) ∧
    (NONCE_SIZE + TAG_SIZE < (List.replicate 33 (0 : Nat)).length ∧
      Cipher.decrypt padAEAD zeroKdf [] (List.replicate 33 0)
        ≠ .error .invalidInput) :=
  ⟨⟨by decide, (cipher_decrypt_invalid_iff padAEAD zeroKdf [] []).1 (by decide)⟩,
   ⟨by decide,
    (cipher_decrypt_invalid_iff padAEAD zeroKdf [] (List.replicate 33 0)).2
      (by decide)⟩⟩

/-- C10: `decrypt(in, out)` leaves the caller's output string unchanged on
every throwing path (invalid input or decryption failure); the output is
assigned only after decryption succeeds. -/
theorem cipher_decrypt_atomic (A : AEADScheme)
    (kdf : List Nat → List Nat → List Nat) (key inp out0 : List Nat)
    (e : CipherError)
    (h : (Cipher.decryptInto A kdf key inp out0).1 = .error e) :
    (Cipher.decryptInto A kdf key inp out0).2 = out0 := by
  by_cases hlen : inp.length ≤ NONCE_SIZE + TAG_SIZE
  · simp [Cipher.decryptInto, hlen]
  · cases hraw : Cipher.decryptRaw A kdf key inp with
    | ok m =>
        exfalso
        simp [Cipher.decryptInto, hlen, hraw] at h
    | error e' => simp [Cipher.decryptInto, hlen, hraw]

/-- Witness for C10: a too-short input throws and leaves the caller's
`[4, 5]` output string untouched. -/
theorem cipher_decrypt_atomic_witness :
    (Cipher.decryptInto padAEAD zeroKdf [] [] [4, 5]).1
        = .error .invalidInput ∧
    (Cipher.decryptInto padAEAD zeroKdf [] [] [4, 5]).2 = [4, 5] :=
  ⟨rfl, cipher_decrypt_atomic padAEAD zeroKdf [] [] [4, 5] .invalidInput rfl⟩

/-- C7: element addition is order-independent: adding `a` then `b` to any
state yields a state equal (under `operator==`) to adding `b` then `a`. -/
theorem sethash_add_comm {G : Type} [AddCommGroup G] (E : ECMHEngine G)
    (s : G) (a b : List Nat) :
    SetHash.equal (SetHash.add_element E (SetHash.add_element E s a) b)
      (SetHash.add_element E (SetHash.add_element E s b) a) := by
  simp only [SetHash.equal, SetHash.add_element]
  exact add_right_comm s _ _

/-- C8: adding then removing the same element cancels exactly, returning the
prior state; in particular the empty `SetHash` after `add(a)` then
`remove(a)` equals the empty `SetHash`. -/
theorem sethash_add_remove_cancel {G : Type} [AddCommGroup G]
    (E : ECMHEngine G) (s : G) (x : List Nat) :
    SetHash.equal (SetHash.remove_element E (SetHash.add_element E s x) x) s ∧
    SetHash.equal
      (SetHash.remove_element E
        (SetHash.add_element E (SetHash.initialState E) x) x)
      (SetHash.initialState E) := by
  constructor <;>
    simp [SetHash.equal, SetHash.remove_element, SetHash.add_element]

/-- C9: hex serialization round-trips: constructing a `SetHash` from `h.hex()`
yields a state equal (under `operator==`) to `h`. -/
theorem sethash_hex_roundtrip {G : Type} [AddCommGroup G] (E : ECMHEngine G)
    (s : G) :
    SetHash.equal (SetHash.from_hex E (SetHash.hex E s)) s := by
  simp only [SetHash.equal, SetHash.from_hex, SetHash.hex]
  exact E.from_to_hex s

/-- Witness for C7 on the concrete engine `modEngine` with elements `[1]`
and `[2, 3]`. -/
theorem sethash_add_comm_witness :
    SetHash.equal
      (SetHash.add_element modEngine
        (SetHash.add_element modEngine (0 : Fin 7) [1]) [2, 3])
      (SetHash.add_element modEngine
        (SetHash.add_element modEngine (0 : Fin 7) [2, 3]) [1]) :=
  sethash_add_comm modEngine 0 [1] [2, 3]

/-- Witness for C8 on the concrete engine `modEngine` with state `3` and
element `[4]`. -/
theorem sethash_add_remove_cancel_witness :
    SetHash.equal
      (SetHash.remove_element modEngine
        (SetHash.add_element modEngine (3 : Fin 7) [4]) [4]) 3 ∧
    SetHash.equal
      (SetHash.remove_element modEngine
        (SetHash.add_element modEngine (SetHash.initialState modEngine) [4]) [4])
      (SetHash.initialState modEngine) :=
  sethash_add_remove_cancel modEngine 3 [4]

/-- Witness for C9 on the concrete engine `modEngine` at state `5`. -/
theorem sethash_hex_roundtrip_witness :
    SetHash.equal (SetHash.from_hex modEngine (SetHash.hex modEngine (5 : Fin 7))) 5 :=
  sethash_hex_roundtrip modEngine 5

/-- The truncated keyed hash yields `min outlen dg` bytes. -/
theorem hmac_length (H : HMacKH) (m : List Nat) (outlen : Nat) :
    (H.hmac m outlen).length = min outlen H.dg := by
  simp [HMacKH.hmac, H.run_length]

/-- Ceil-division covers: `numBlocks d n` blocks of `d` bytes reach `n`. -/
theorem numBlocks_mul_ge (d n : Nat) (hd : 0 < d) :
    n ≤ Prf.numBlocks d n * d := by
  unfold Prf.numBlocks
  have h1 := Nat.div_add_mod (n + d - 1) d
  have h2 : (n + d - 1) % d < d := Nat.mod_lt _ hd
  have h3 : d * ((n + d - 1) / d) = ((n + d - 1) / d) * d := Nat.mul_comm _ _
  omega

/-- Every block before the last starts strictly inside the output. -/
theorem lt_of_lt_numBlocks (d n k : Nat) (hd : 0 < d) (hn : 0 < n)
    (hk : k < Prf.numBlocks d n) : k * d < n := by
  unfold Prf.numBlocks at hk
  have h1 : (k + 1) * d ≤ ((n + d - 1) / d) * d := Nat.mul_le_mul_right d hk
  have h2 : ((n + d - 1) / d) * d ≤ n + d - 1 := Nat.div_mul_le_self _ _
  have h3 : (k + 1) * d = k * d + d := Nat.succ_mul k d
  omega

/-- Each block produces at least one byte, so the block count is at most the
byte count. -/
theorem numBlocks_le (d n : Nat) (hd : 0 < d) : Prf.numBlocks d n ≤ n := by
  unfold Prf.numBlocks
  rw [Nat.div_le_iff_le_mul_add_pred hd]
  have := Nat.le_mul_of_pos_left n hd
  omega

/-- A `blockcat` of zero counters is empty. -/
theorem blockcat_zero (H : HMacKH) (inp : List Nat) (i : Nat) :
    Prf.blockcat H inp i 0 = [] := by
  simp [Prf.blockcat]

/-- A `blockcat` peels off its first digest. -/
theorem blockcat_succ (H : HMacKH) (inp : List Nat) (i m : Nat) :
    Prf.blockcat H inp i (m + 1)
      = H.run (inp ++ [i % 256]) ++ Prf.blockcat H inp (i + 1) m := by
  unfold Prf.blockcat
  have hfun : (fun j => H.run (inp ++ [(i + j) % 256])) ∘ Nat.succ
      = fun j => H.run (inp ++ [(i + 1 + j) % 256]) := by
    funext j
    simp only [Function.comp]
    rw [show i + Nat.succ j = i + 1 + j from by omega]
  simp only [List.range_succ_eq_map, List.map_cons, List.map_map, hfun,
    List.flatten_cons, Nat.add_zero]

/-- A `blockcat` of `m` digests has `m * dg` bytes. -/
theorem blockcat_length (H : HMacKH) (inp : List Nat) :
    ∀ m i, (Prf.blockcat H inp i m).length = m * H.dg := by
  intro m
  induction m with
  | zero =>
    intro i
    simp [Prf.blockcat]
  | succ m ih =>
    intro i
    rw [blockcat_succ, List.length_append, H.run_length, ih (i + 1),
      Nat.succ_mul]
    omega

/-- The claim's output description is the truncation of a `blockcat` starting
at counter `0`. -/
theorem prfCounterSpec_eq_blockcat (H : HMacKH) (nbytes : Nat)
    (inp : List Nat) :
    Prf.prfCounterSpec H nbytes inp
      = (Prf.blockcat H inp 0 (Prf.numBlocks H.dg nbytes)).take nbytes := by
  unfold Prf.prfCounterSpec Prf.blockcat
  simp [Nat.zero_add]

/-- Writing at the end of the filled prefix of a buffer whose tail is zeros
appends the block and shrinks the zero tail. -/
theorem writeAt_aligned (acc blk : List Nat) (z pos : Nat)
    (hpos : pos = acc.length) :
    Prf.writeAt (acc ++ List.replicate z 0) pos blk
      = (acc ++ blk) ++ List.replicate (z - blk.length) 0 := by
  subst hpos
  unfold Prf.writeAt
  rw [List.take_left, List.drop_append_eq_append_drop,
    List.drop_eq_nil_of_le (by omega),
    show acc.length + blk.length - acc.length = blk.length from by omega,
    List.drop_replicate]
  simp [List.append_assoc]

/-- One check with the position at or past the requested length exits the
loop and returns the buffer. -/
theorem prfLoopW_exit (H : HMacKH) (nbytes : Nat) (inp : List Nat)
    (fuel pos i : Nat) (buf : List Nat) (hf : 1 ≤ fuel)
    (hpos : nbytes ≤ pos) :
    Prf.prfLoopW H nbytes inp fuel pos i buf = some buf := by
  obtain ⟨f, rfl⟩ : ∃ f, fuel = f + 1 := ⟨fuel - 1, by omega⟩
  simp only [Prf.prfLoopW]
  rw [if_neg (by omega)]

/-- Loop invariant: starting at block `k` with counter `i`, a buffer whose
first `k * dg` bytes are `acc` and whose tail is zeros, and fuel exceeding
the `m` remaining blocks, the loop terminates (the position never wraps, by
the `numBlocks * dg < 2^16` hypothesis) and fills the rest of the buffer
with the truncated concatenation of the remaining digests. -/
theorem prfLoopW_spec (H : HMacKH) (nbytes : Nat) (inp : List Nat)
    (hn : 0 < nbytes) (hw : Prf.numBlocks H.dg nbytes * H.dg < 65536) :
    ∀ m k i acc fuel, k + m = Prf.numBlocks H.dg nbytes →
      acc.length = k * H.dg → m + 1 ≤ fuel →
      Prf.prfLoopW H nbytes inp fuel (k * H.dg) i
          (acc ++ List.replicate (nbytes - k * H.dg) 0)
        = some (acc ++ (Prf.blockcat H inp i m).take (nbytes - k * H.dg)) := by
  intro m
  induction m with
  | zero =>
    intro k i acc fuel hk hacc hfuel
    have hk' : k = Prf.numBlocks H.dg nbytes := by omega
    subst hk'
    have hge : nbytes ≤ Prf.numBlocks H.dg nbytes * H.dg :=
      numBlocks_mul_ge H.dg nbytes H.dg_pos
    rw [show nbytes - Prf.numBlocks H.dg nbytes * H.dg = 0 from by omega,
      blockcat_zero]
    simp only [List.replicate_zero, List.append_nil, List.take_zero]
    exact prfLoopW_exit H nbytes inp fuel _ i acc (by omega) hge
  | succ m ih =>
    intro k i acc fuel hk hacc hfuel
    obtain ⟨f, rfl⟩ : ∃ f, fuel = f + 1 := ⟨fuel - 1, by omega⟩
    have hklt : k < Prf.numBlocks H.dg nbytes := by omega
    have hpos : k * H.dg < nbytes :=
      lt_of_lt_numBlocks H.dg nbytes k H.dg_pos hn hklt
    have hsum : k * H.dg + H.dg = (k + 1) * H.dg := (Nat.succ_mul k H.dg).symm
    have hk1 : (k + 1) * H.dg ≤ Prf.numBlocks H.dg nbytes * H.dg :=
      Nat.mul_le_mul_right H.dg (by omega)
    have hmod : (k * H.dg + H.dg) % 65536 = (k + 1) * H.dg := by
      rw [hsum]
      exact Nat.mod_eq_of_lt (by omega)
    simp only [Prf.prfLoopW]
    rw [if_pos hpos]
    by_cases hfull : H.dg ≤ nbytes - k * H.dg
    · rw [if_pos hfull]
      have hblk : H.hmac (inp ++ [i % 256]) H.dg = H.run (inp ++ [i % 256]) := by
        unfold HMacKH.hmac
        exact List.take_of_length_le (le_of_eq (H.run_length _))
      rw [hblk]
      have hwrite := writeAt_aligned acc (H.run (inp ++ [i % 256]))
        (nbytes - k * H.dg) (k * H.dg) hacc.symm
      rw [H.run_length] at hwrite
      rw [show nbytes - k * H.dg - H.dg = nbytes - (k + 1) * H.dg from
        by omega] at hwrite
      rw [hwrite, hmod,
        ih (k + 1) (i + 1) (acc ++ H.run (inp ++ [i % 256])) f (by omega)
          (by rw [List.length_append, H.run_length, hacc]; omega) (by omega)]
      have htk : (H.run (inp ++ [i % 256])
            ++ Prf.blockcat H inp (i + 1) m).take (nbytes - k * H.dg)
          = H.run (inp ++ [i % 256])
            ++ (Prf.blockcat H inp (i + 1) m).take (nbytes - (k + 1) * H.dg) := by
        rw [List.take_append_eq_append_take,
          List.take_of_length_le (by rw [H.run_length]; exact hfull),
          H.run_length,
          show nbytes - k * H.dg - H.dg = nbytes - (k + 1) * H.dg from by omega]
      rw [blockcat_succ, htk, ← List.append_assoc]
    · rw [if_neg hfull]
      have hm0 : m = 0 := by
        by_contra hm
        have hk1lt : k + 1 < Prf.numBlocks H.dg nbytes := by omega
        have := lt_of_lt_numBlocks H.dg nbytes (k + 1) H.dg_pos hn hk1lt
        omega
      subst hm0
      have hwrite := writeAt_aligned acc
        (H.hmac (inp ++ [i % 256]) (nbytes - k * H.dg))
        (nbytes - k * H.dg) (k * H.dg) hacc.symm
      rw [hmac_length] at hwrite
      rw [show nbytes - k * H.dg - min (nbytes - k * H.dg) H.dg = 0 from
        by omega] at hwrite
      simp only [List.replicate_zero, List.append_nil] at hwrite
      rw [hwrite, hmod,
        prfLoopW_exit H nbytes inp f ((k + 1) * H.dg) (i + 1) _ (by omega)
          (by omega)]
      rw [blockcat_succ, blockcat_zero, List.append_nil]
      rfl

/-- The intended counter-mode behaviour, provable exactly when the uint16_t
loop position cannot wrap: for `dg < nbytes` with the total block span below
2^16, `prf` returns the truncated concatenation of the counter-mode digests
of `inp || counter_byte`, and that output has exactly `nbytes` bytes. -/
theorem prf_counter_mode (H : HMacKH) (nbytes : Nat) (inp : List Nat)
    (h : H.dg < nbytes) (hw : Prf.numBlocks H.dg nbytes * H.dg < 65536) :
    Prf.prf H nbytes inp = some (Prf.prfCounterSpec H nbytes inp) ∧
    (Prf.prfCounterSpec H nbytes inp).length = nbytes := by
  have hn : 0 < nbytes := by omega
  constructor
  · simp only [Prf.prf, if_pos h]
    have hspec := prfLoopW_spec H nbytes inp hn hw
      (Prf.numBlocks H.dg nbytes) 0 0 [] (nbytes + 1) (by omega) (by simp)
      (by have := numBlocks_le H.dg nbytes H.dg_pos; omega)
    simp only [Nat.zero_mul, List.nil_append, Nat.sub_zero] at hspec
    rw [hspec, prfCounterSpec_eq_blockcat]
  · rw [prfCounterSpec_eq_blockcat, List.length_take, blockcat_length]
    have := numBlocks_mul_ge H.dg nbytes H.dg_pos
    omega

/-- Witness for the no-wrap counter-mode theorem: the concrete keyed hash
`lenHash` has a 2-byte digest, 5 output bytes are requested, and the 3
blocks span 6 bytes, far below 2^16. -/
theorem prf_counter_mode_witness :
    (lenHash.dg < 5 ∧ Prf.numBlocks lenHash.dg 5 * lenHash.dg < 65536) ∧
    (Prf.prf lenHash 5 [1, 2, 3] = some (Prf.prfCounterSpec lenHash 5 [1, 2, 3]) ∧
      (Prf.prfCounterSpec lenHash 5 [1, 2, 3]).length = 5) :=
  ⟨⟨by decide, by decide⟩,
   prf_counter_mode lenHash 5 [1, 2, 3] (by decide) (by decide)⟩

/-- With the repository's 64-byte digest and the output length 65473 (any
length in [65473, 65535] behaves the same), the uint16_t loop position only
ever takes values that are multiples of 64 below 2^16, all smaller than the
requested length, so the loop condition never fails and the loop never
exits, whatever the iteration bound. -/
theorem prfLoopW_wrap_diverges :
    ∀ fuel pos i buf, 64 ∣ pos → pos < 65536 →
      Prf.prfLoopW blockHash64 65473 [1] fuel pos i buf = none := by
  intro fuel
  induction fuel with
  | zero =>
    intro pos i buf _ _
    rfl
  | succ f ih =>
    intro pos i buf hdvd hlt
    obtain ⟨t, rfl⟩ := hdvd
    have hpos : 64 * t < 65473 := by omega
    simp only [Prf.prfLoopW]
    rw [if_pos hpos]
    have hdg : blockHash64.dg = 64 := rfl
    rw [hdg]
    apply ih
    · rcases Nat.lt_or_ge (64 * t + 64) 65536 with hc | hc
      · rw [Nat.mod_eq_of_lt hc]
        exact ⟨t + 1, by ring⟩
      · rw [show 64 * t + 64 = 65536 from by omega, Nat.mod_self]
        exact dvd_zero 64
    · exact Nat.mod_lt _ (by norm_num)

/-- C3 failing input: with the repository's 64-byte digest, the output
length 65473 exceeds the digest size, yet `prf` never returns — the
uint16_t loop position wraps modulo 2^16 (65472 + 64 ≡ 0) and the loop
restarts instead of exiting, for every iteration bound — so the claimed
`NBYTES`-byte output is never produced. -/
theorem prf_wrap_cex :
    blockHash64.dg < 65473 ∧
    (∀ fuel i buf, Prf.prfLoopW blockHash64 65473 [1] fuel 0 i buf = none) ∧
    Prf.prf blockHash64 65473 [1] = none := by
  refine ⟨by decide, ?_, ?_⟩
  · intro fuel i buf
    exact prfLoopW_wrap_diverges fuel 0 i buf ⟨0, rfl⟩ (by norm_num)
  · simp only [Prf.prf]
    rw [if_pos (by decide)]
    exact prfLoopW_wrap_diverges 65474 0 0 _ ⟨0, rfl⟩ (by norm_num)

end SseCrypto
